import Mathlib

/-!
Verification of the blog cache/parser core of `express-simple-static-blog`.

The JavaScript sources (`lib/blogParser.js`, `lib/blogCache.js`,
`lib/blogRouter.js`) are shallowly embedded below: strings are Lean
`String`s (processed as `List Char`), JS regular-expression scans are
embedded as explicit leftmost-match scanners with the same
greedy/lazy backtracking behaviour, fallible I/O is `Except`, and
JS objects with optional properties use `Option`.
-/

namespace Blog

/-! ### Character classes used by the JS regexes -/

/-- The characters matched by the regex class `\s` (the ASCII ones;
blog metadata is ASCII text). -/
def jsWs (c : Char) : Bool :=
  c = ' ' || c = '\t' || c = '\n' || c = '\r' || c = '\x0b' || c = '\x0c'

/-- Decimal digit, regex class `\d`. -/
def isDigitC (c : Char) : Bool := '0' ≤ c && c ≤ '9'

/-- The regex word class `\w` = `[A-Za-z0-9_]`. -/
def isWordC (c : Char) : Bool :=
  ('a' ≤ c && c ≤ 'z') || ('A' ≤ c && c ≤ 'Z') || isDigitC c || c = '_'

/-- Characters the regex `.` matches (anything but a line terminator). -/
def jsDot (c : Char) : Bool :=
  !(c = '\n' || c = '\r' || c = '\u2028' || c = '\u2029')

/-- Does `pat` occur at the start of `l`? -/
def startsWithL : List Char → List Char → Bool
  | [], _ => true
  | _ :: _, [] => false
  | a :: as, b :: bs => a = b && startsWithL as bs

/-- `String.prototype.endsWith`. -/
def endsWithL (l pat : List Char) : Bool := startsWithL pat.reverse l.reverse

/-- `String.prototype.includes`: does `pat` occur as a contiguous
substring of `hay`? -/
def containsL (hay pat : List Char) : Bool :=
  match hay with
  | [] => pat.isEmpty
  | _ :: t => startsWithL pat hay || containsL t pat

/-- `String.prototype.toLowerCase` (ASCII case mapping). -/
def lowerL (l : List Char) : List Char := l.map Char.toLower

/-- `String.prototype.trim`: strip leading and trailing whitespace. -/
def trimL (l : List Char) : List Char :=
  ((l.dropWhile jsWs).reverse.dropWhile jsWs).reverse

/-- Numeric value of a digit character. -/
def digitVal (c : Char) : Nat := c.toNat - '0'.toNat

/-- Value of a digit string, most significant digit first. -/
def digitsVal (l : List Char) : Nat := l.foldl (fun a c => 10 * a + digitVal c) 0

/-- The leading digit run of `l`, as a number (`none` when there is no
digit, i.e. the JS result is `NaN`). -/
def digitsOf (l : List Char) : Option Nat :=
  let ds := l.takeWhile isDigitC
  if ds.isEmpty then none else some (digitsVal ds)

/-- JS `parseInt(s, 10)`: skip leading whitespace, optional sign, then
the maximal digit run; `none` models `NaN`. -/
def jsParseInt (s : String) : Option Int :=
  match s.data.dropWhile jsWs with
  | '-' :: rest => (digitsOf rest).map (fun n => -(n : Int))
  | '+' :: rest => (digitsOf rest).map (fun n => (n : Int))
  | rest => (digitsOf rest).map (fun n => (n : Int))

/-- `String.prototype.split(sep)`. -/
def splitOnC (sep : Char) : List Char → List (List Char)
  | [] => [[]]
  | c :: rest =>
    if c = sep then [] :: splitOnC sep rest
    else
      match splitOnC sep rest with
      | [] => [[c]]
      | g :: gs => (c :: g) :: gs

/-- `path.basename`: the part of the path after the last `/`. -/
def basenameAux : List Char → List Char → List Char
  | [], acc => acc.reverse
  | '/' :: rest, _ => basenameAux rest []
  | c :: rest, acc => basenameAux rest (c :: acc)

def basenameStr (s : String) : String := ⟨basenameAux s.data []⟩

/-! ### Slug generation

`BlogParser.generateSlug` lower-cases the title, deletes every
character outside word-characters, whitespace and hyphen, replaces the
whitespace runs (regex `\s+`, global) by `-`, replaces the hyphen runs
of length at least two (regex `--+`, global) by `-`, and finally calls
`trim()` (which strips only whitespace).

A global replace of every maximal run of `p`-characters by the single
character `repl` is `squashRuns p repl l false`.  Replacing only the
runs of length ≥ 2 and leaving single hyphens alone produces the same
list, so both `replace` calls are instances of `squashRuns`. -/

def squashRuns (p : Char → Bool) (repl : Char) : List Char → Bool → List Char
  | [], _ => []
  | c :: cs, inRun =>
    if p c then
      (if inRun then [] else [repl]) ++ squashRuns p repl cs true
    else
      c :: squashRuns p repl cs false

def generateSlug (title : String) : String :=
  let step1 := lowerL title.data
  let step2 := step1.filter (fun c => isWordC c || jsWs c || c = '-')
  let step3 := squashRuns jsWs '-' step2 false
  let step4 := squashRuns (fun c => c = '-') '-' step3 false
  ⟨trimL step4⟩

/-- The character set the slug contract promises: lower-case word
characters and hyphens. -/
def slugChar (c : Char) : Bool :=
  ('a' ≤ c && c ≤ 'z') || ('0' ≤ c && c ≤ '9') || c = '_' || c = '-'

def headDash : List Char → Bool
  | [] => false
  | c :: _ => c = '-'

/-- No two adjacent hyphens. -/
def noDD : List Char → Bool
  | [] => true
  | c :: t => !(c = '-' && headDash t) && noDD t

/-! ### HTML-comment metadata scanners

The parser's regexes all have the shape
`tag-open whitespace bracket-open key colon whitespace (lazy value) bracket-close whitespace tag-close`
(and `title-open (lazy value) title-close` for the title element).  We
embed them operationally: a leftmost scan over start positions; at a
given position the whitespace star is greedy with backtracking and the
value group (one or more `.`) is lazy, exactly the engine's preference
order. -/

/-- Close of the bracketed metadata pattern: a literal `]`, greedy
whitespace, the literal tag close.  Returns the rest after the match. -/
def closerMeta (rest : List Char) : Option (List Char) :=
  match rest with
  | ']' :: r =>
    let r2 := r.dropWhile jsWs
    if startsWithL "-->".data r2 then some (r2.drop 3) else none
  | _ => none

/-- Close of the title pattern: the literal close tag. -/
def closerTitle (rest : List Char) : Option (List Char) :=
  if startsWithL "</title>".data rest then some (rest.drop 8) else none

/-- Lazy `(.+?)` followed by `closer`: the shortest non-empty run of
`.`-characters after which `closer` matches.  `acc` is the reversed
value read so far. -/
def lazyVal (closer : List Char → Option (List Char)) :
    List Char → List Char → Option (List Char × List Char)
  | _, [] => none
  | acc, c :: rest =>
    if jsDot c then
      match closer rest with
      | some rem => some ((c :: acc).reverse, rem)
      | none => lazyVal closer (c :: acc) rest
    else none

/-- The `\s*(.+?)]\s*` tail after the colon: the whitespace star is
greedy, backtracking one character at a time when no value match
follows. -/
def tailFromWs : Nat → List Char → Option (List Char × List Char)
  | w, rest =>
    match lazyVal closerMeta [] (rest.drop w) with
    | some r => some r
    | none => match w with
      | 0 => none
      | w' + 1 => tailFromWs w' rest

def matchTail (rest : List Char) : Option (List Char × List Char) :=
  tailFromWs ((rest.takeWhile jsWs).length) rest

/-- Match the fixed-key comment pattern (keys `date`, `desc`) at the
current position. -/
def matchKeyAt (key : List Char) (l : List Char) : Option (List Char × List Char) :=
  if startsWithL "<!--".data l then
    match (l.drop 4).dropWhile jsWs with
    | '[' :: r2 =>
      if startsWithL (key ++ [':']) r2 then matchTail (r2.drop (key.length + 1))
      else none
    | _ => none
  else none

/-- First (leftmost) match of the fixed-key comment pattern; the raw
captured value. -/
def findKeyVal (key : List Char) : List Char → Option (List Char)
  | [] => none
  | c :: rest =>
    match matchKeyAt key (c :: rest) with
    | some (v, _) => some v
    | none => findKeyVal key rest

/-- Match the generic custom-metadata pattern (key group `\w+`, greedy)
at the current position. -/
def matchCustomAt (l : List Char) : Option (String × String × List Char) :=
  if startsWithL "<!--".data l then
    match (l.drop 4).dropWhile jsWs with
    | '[' :: r2 =>
      let key := r2.takeWhile isWordC
      if key.isEmpty then none
      else
        match r2.drop key.length with
        | ':' :: r3 =>
          match matchTail r3 with
          | some (v, rem) => some (⟨key⟩, ⟨v⟩, rem)
          | none => none
        | _ => none
    | _ => none
  else none

/-- The global (`g`-flag) scan of the custom-metadata regex: leftmost
matches, resuming after each match.  The fuel is the list length: every
step either consumes at least the matched text or slides one position. -/
def scanMetaAux : Nat → List Char → List (String × String)
  | 0, _ => []
  | _, [] => []
  | fuel + 1, c :: rest =>
    match matchCustomAt (c :: rest) with
    | some (k, v, rem) => (k, v) :: scanMetaAux fuel rem
    | none => scanMetaAux fuel rest

def scanMeta (l : List Char) : List (String × String) := scanMetaAux l.length l

/-- First match of the title-element pattern. -/
def matchTitleAt (l : List Char) : Option (List Char × List Char) :=
  if startsWithL "<title>".data l then lazyVal closerTitle [] (l.drop 7) else none

def findTitleVal : List Char → Option (List Char)
  | [] => none
  | c :: rest =>
    match matchTitleAt (c :: rest) with
    | some (v, _) => some v
    | none => findTitleVal rest

/-! ### Metadata bags and the two strategies -/

/-- The metadata object built by the strategy functions: optional
`date`/`title`/`desc` plus the open-ended `extra` map (an insertion
ordered key/value list, as a JS object). -/
structure Metadata where
  date : Option String
  title : Option String
  desc : Option String
  extra : List (String × String)
deriving DecidableEq

/-- JS object property assignment `m[k] = v`: overwrite in place, else
append. -/
def setKey (m : List (String × String)) (k v : String) : List (String × String) :=
  if m.any (fun kv => kv.1 = k) then
    m.map (fun kv => if kv.1 = k then (k, v) else kv)
  else m ++ [(k, v)]

/-- The key guard of the custom-metadata scan: everything except
`date` and `desc`. -/
def extraKeyOk (k : String) : Bool := !(k == "date") && !(k == "desc")

/-- `BlogParser.parseHtmlCommentMetadata`. -/
def parseHtmlCommentMetadata (content : String) : Metadata :=
  let l := content.data
  { date := (findKeyVal "date".data l).map (fun v => (⟨trimL v⟩ : String))
    desc := (findKeyVal "desc".data l).map (fun v => (⟨trimL v⟩ : String))
    title := (findTitleVal l).map (fun v => (⟨trimL v⟩ : String))
    extra := (scanMeta l).foldl
      (fun m kv =>
        if kv.1 ≠ "date" ∧ kv.1 ≠ "desc" then setKey m kv.1 (⟨trimL kv.2.data⟩ : String)
        else m)
      [] }

/-- The front-matter block: the content must begin with a `---` line;
the block is the shortest (lazy `[\s\S]*?`) run of characters followed
by a newline and `---`. -/
def fmScan : List Char → List Char → Option (List Char)
  | acc, rest =>
    if startsWithL "\n---".data rest then some acc.reverse
    else
      match rest with
      | [] => none
      | c :: r => fmScan (c :: acc) r

def fmBlockOf (l : List Char) : Option (List Char) :=
  if startsWithL "---\n".data l then fmScan [] (l.drop 4) else none

/-- One `key: value` line of the front-matter block (first colon is the
separator; a missing colon or a colon at position 0 skips the line). -/
def fmLine (m : Metadata) (line : List Char) : Metadata :=
  match line.indexOf ':' with
  | 0 => m
  | i =>
    if i < line.length then
      let key : String := ⟨trimL (line.take i)⟩
      let value : String := ⟨trimL (line.drop (i + 1))⟩
      if key = "date" then { m with date := some value }
      else if key = "title" then { m with title := some value }
      else if key = "description" ∨ key = "desc" then { m with desc := some value }
      else { m with extra := setKey m.extra key value }
    else m

/-- JS string truthiness of an optional string property. -/
def truthyOpt : Option String → Bool
  | some s => s ≠ ""
  | none => false

/-- `BlogParser.parseFrontMatterMetadata`. -/
def parseFrontMatterMetadata (content : String) : Metadata :=
  match fmBlockOf content.data with
  | none => parseHtmlCommentMetadata content
  | some block =>
    let m0 := (splitOnC '\n' block).foldl fmLine ⟨none, none, none, []⟩
    if truthyOpt m0.title then m0
    else { m0 with title := (findTitleVal content.data).map (fun v => (⟨trimL v⟩ : String)) }

/-! ### Record assembly (`BlogParser.parseFile`) -/

/-- A parsed blog record: the fixed core fields of the JS object plus
the merged-in extra keys that did not collide with a core name. -/
structure Record where
  fileName : String
  filePath : String
  date : String
  title : String
  desc : String
  content : String
  year : Option String
  month : Option String
  day : Option String
  slug : String
  extra : List (String × String)
deriving DecidableEq

/-- JS `a || b` for an optional string `a` (empty string is falsy). -/
def jsOrStr (o : Option String) (d : String) : String :=
  match o with
  | some s => if s = "" then d else s
  | none => d

/-- Spreading one extra key into the record object: a key equal to a
core field name overwrites that field, any other key lands next to the
core fields. -/
def assignField (r : Record) (k v : String) : Record :=
  if k = "fileName" then { r with fileName := v }
  else if k = "filePath" then { r with filePath := v }
  else if k = "date" then { r with date := v }
  else if k = "title" then { r with title := v }
  else if k = "desc" then { r with desc := v }
  else if k = "content" then { r with content := v }
  else if k = "year" then { r with year := some v }
  else if k = "month" then { r with month := some v }
  else if k = "day" then { r with day := some v }
  else if k = "slug" then { r with slug := v }
  else { r with extra := setKey r.extra k v }

/-- `{ ...core, ...metadata.extra }`. -/
def applyExtra (r : Record) (ex : List (String × String)) : Record :=
  ex.foldl (fun r kv => assignField r kv.1 kv.2) r

/-- `BlogParser.parseFile`, as a function of the file path and the raw
file content (the `fs.readFileSync` result). -/
def parseFile (metadataFormat : String) (filePath : String) (fileContent : String) : Record :=
  let fileName := basenameStr filePath
  let md :=
    if metadataFormat = "front-matter" then parseFrontMatterMetadata fileContent
    else parseHtmlCommentMetadata fileContent
  let ymd : Option String × Option String × Option String :=
    match md.date with
    | some ds =>
      if ds ≠ "" then
        match splitOnC '-' ds.data with
        | [a, b, c] => (some ⟨a⟩, some ⟨b⟩, some ⟨c⟩)
        | _ => (none, none, none)
      else (none, none, none)
    | none => (none, none, none)
  let core : Record :=
    { fileName := fileName
      filePath := filePath
      date := jsOrStr md.date "No date found"
      title := jsOrStr md.title "Untitled"
      desc := jsOrStr md.desc "No description available"
      content := fileContent
      year := ymd.1
      month := ymd.2.1
      day := ymd.2.2
      slug := generateSlug (jsOrStr md.title fileName)
      extra := [] }
  applyExtra core md.extra

/-! ### Date validation (`BlogParser.isValidDate`)

The JS code matches `^(\d{4})-(\d{2})-(\d{2})$`, parses the three
groups, builds `new Date(year, month - 1, day)` and accepts when the
constructed date's year/month/day equal the parsed values.  The `Date`
constructor maps a year argument in `0..99` to `1900 + year` and
normalizes month/day overflow by calendar arithmetic (proleptic
Gregorian); `normDay` performs that normalization (fuel 5 is enough
for the two-digit day values reachable here). -/

/-- The syntactic regex `^(\d{4})-(\d{2})-(\d{2})$` with the three
parsed integer groups. -/
def parseDateShape (s : String) : Option (Nat × Nat × Nat) :=
  match s.data with
  | [y1, y2, y3, y4, s1, m1, m2, s2, d1, d2] =>
    if isDigitC y1 && isDigitC y2 && isDigitC y3 && isDigitC y4 && s1 = '-' &&
        isDigitC m1 && isDigitC m2 && s2 = '-' && isDigitC d1 && isDigitC d2 then
      some (digitsVal [y1, y2, y3, y4], digitsVal [m1, m2], digitsVal [d1, d2])
    else none
  | _ => none

def isLeap (y : Nat) : Bool := y % 4 = 0 && (y % 100 ≠ 0 || y % 400 = 0)

/-- Days in the 0-based month `m` of year `y`. -/
def daysInMonth (y m : Nat) : Nat :=
  if m = 1 then (if isLeap y then 29 else 28)
  else if m = 3 ∨ m = 5 ∨ m = 8 ∨ m = 10 then 30
  else 31

/-- Calendar normalization of a day-of-month that may be `0` (borrow
one month) or beyond the month length (carry months). -/
def normDay : Nat → Nat → Nat → Nat → Nat × Nat × Nat
  | 0, y, m, d => (y, m, d)
  | fuel + 1, y, m, d =>
    if d = 0 then
      if m = 0 then normDay fuel (y - 1) 11 (daysInMonth (y - 1) 11)
      else normDay fuel y (m - 1) (daysInMonth y (m - 1))
    else if daysInMonth y m < d then
      if m = 11 then normDay fuel (y + 1) 0 (d - daysInMonth y m)
      else normDay fuel y (m + 1) (d - daysInMonth y m)
    else (y, m, d)

/-- The semantic check: build `new Date(year, month - 1, day)` and
compare its `getFullYear`/`getMonth`/`getDate` against the parsed
components.  The constructor's year adjustment (0–99 ↦ 1900–1999) and
its month/day normalization are modelled explicitly. -/
def jsDateCheck (y mo dy : Nat) : Bool :=
  let adjY := if y ≤ 99 then y + 1900 else y
  let months := adjY * 12 + mo - 1
  let r := normDay 5 (months / 12) (months % 12) dy
  (r.1 == y) && ((r.2.1 : Int) == (mo : Int) - 1) && (r.2.2 == dy)

/-- `BlogParser.isValidDate`. -/
def isValidDate (s : String) : Bool :=
  if s = "" then false
  else
    match parseDateShape s with
    | none => false
    | some (y, mo, dy) => jsDateCheck y mo dy

/-- Modelled from the spec: the date-validity contract as the spec
states it — syntactic `YYYY-MM-DD` shape plus a real calendar date —
with the year ≥ 100 restriction the code's `Date(year, ...)`
constructor forces (years 0–99 are read as 1900–1999 and so never
round-trip). -/
def realDate (y mo dy : Nat) : Bool :=
  1 ≤ mo && mo ≤ 12 && 1 ≤ dy && dy ≤ daysInMonth y (mo - 1)

def specValidDate (s : String) : Bool :=
  match parseDateShape s with
  | some (y, mo, dy) => realDate y mo dy && 100 ≤ y
  | none => false

/-! ### The blog cache (`BlogCache`)

`refresh()` observes the file system: either the configured directory
is missing, or listing it throws, or it yields entries whose reads in
turn succeed or throw.  `refresh` wraps its whole body in a
`try`/`catch` whose handler logs and sets the cache to `[]`; the only
error that reaches that handler is the directory-listing one (per-file
read/parse errors are caught by the inner per-file handler, which maps
the file to `null`). -/

structure Config where
  blogsDir : String
  cache : Bool
  sortOrder : String
  metadataFormat : String
deriving DecidableEq

deriving instance DecidableEq for Except

structure FileEntry where
  name : String
  content : Except String String
deriving DecidableEq

inductive FsDir where
  | missing
  | listError (msg : String)
  | ok (files : List FileEntry)
deriving DecidableEq

/-- Sort key of a record's validated `YYYY-MM-DD` date string.  The JS
comparator subtracts `new Date(date)` timestamps; on the validated
dates present at sort time the timestamp order coincides with the
lexicographic (year, month, day) order, which this key encodes. -/
def dateKeyOf (s : String) : Nat :=
  match parseDateShape s with
  | some (y, mo, dy) => y * 10000 + mo * 100 + dy
  | none => 0

/-- Does `a` come strictly before `b` under the configured order
(negative comparator value)? -/
def recBefore (sortOrder : String) (a b : Record) : Bool :=
  if sortOrder = "asc" then dateKeyOf a.date < dateKeyOf b.date
  else dateKeyOf b.date < dateKeyOf a.date

/-- Stable insertion: `x` moves past exactly the elements strictly
before it, and ends up ahead of every later-input element it ties
with — the stable-sort semantics `Array.prototype.sort` guarantees. -/
def insertJs {α : Type} (lt : α → α → Bool) (x : α) : List α → List α
  | [] => [x]
  | y :: ys => if lt y x then y :: insertJs lt x ys else x :: y :: ys

def sortJs {α : Type} (lt : α → α → Bool) : List α → List α
  | [] => []
  | x :: xs => insertJs lt x (sortJs lt xs)

/-- The files surviving the `.html`/`.htm` filter, parsed; a throwing
read is caught per file and contributes nothing. -/
def parsedFiles (cfg : Config) (files : List FileEntry) : List Record :=
  (files.filter (fun f =>
      endsWithL f.name.data ".html".data || endsWithL f.name.data ".htm".data)).filterMap
    (fun f =>
      match f.content with
      | .ok c => some (parseFile cfg.metadataFormat (cfg.blogsDir ++ "/" ++ f.name) c)
      | .error _ => none)

def validRecords (cfg : Config) (files : List FileEntry) : List Record :=
  (parsedFiles cfg files).filter (fun b => isValidDate b.date)

/-- The body of `refresh()` inside the outer `try`: the value it would
store, or the error it throws. -/
def refreshBody (cfg : Config) (fs : FsDir) : Except String (List Record) :=
  match fs with
  | .missing => .ok []
  | .listError e => .error e
  | .ok files => .ok (sortJs (recBefore cfg.sortOrder) (validRecords cfg files))

/-- The observable result of calling `refresh()`: the outer `catch`
turns any thrown error into a normal return with an empty cache. -/
def refreshRun (cfg : Config) (fs : FsDir) : Except String (List Record) :=
  match refreshBody cfg fs with
  | .ok l => .ok l
  | .error _ => .ok []

/-- Did the call return normally (no exception reached the caller)? -/
def exceptOk : Except String (List Record) → Bool
  | .ok _ => true
  | .error _ => false

/-- The cache contents after `refresh()` (it never depends on the
previous contents). -/
def refreshList (cfg : Config) (fs : FsDir) : List Record :=
  match refreshRun cfg fs with
  | .ok l => l
  | .error _ => []

/-- `getAll()`: refresh lazily when caching is off or the collection is
empty, then return (a copy of) the collection. -/
def getAllCache (cfg : Config) (fs : FsDir) (cache : List Record) : List Record :=
  if cfg.cache = false ∨ cache.isEmpty then refreshList cfg fs else cache

/-! ### `getByDate` -/

/-- A JS value sitting in a `{year, month, day}` property. -/
inductive JsVal where
  | num (n : Int)
  | str (s : String)
  | undef
deriving DecidableEq

def truthy : JsVal → Bool
  | .num n => n ≠ 0
  | .str s => s ≠ ""
  | .undef => false

/-- `parseInt(v, 10)` on a property value (`none` is `NaN`). -/
def jsValParseInt : JsVal → Option Int
  | .num n => some n
  | .str s => jsParseInt s
  | .undef => none

/-- A JS `Date` object: either invalid (`NaN` time) or a calendar
date, carried as its `getFullYear`/`getMonth`/`getDate` components. -/
structure JsDate where
  valid : Bool
  y : Int
  m : Int
  d : Int
deriving DecidableEq

/-- The accepted argument shapes of `getByDate`. -/
inductive DateLike where
  | strD (s : String)
  | dateD (dt : JsDate)
  | objD (year month day : JsVal)
  | otherD
deriving DecidableEq

/-- Normalization of the argument to the `(year, month, day)` integer
triple (`none` inside a component is `NaN`; an outer `none` is the
early `return null`). -/
def normalizeDateLike : DateLike → Option (Option Int × Option Int × Option Int)
  | .strD s =>
    match parseDateShape s with
    | some (y, mo, dy) => some (some (y : Int), some (mo : Int), some (dy : Int))
    | none => none
  | .dateD dt =>
    if dt.valid then some (some dt.y, some (dt.m + 1), some dt.d) else none
  | .objD y m d =>
    if truthy y && truthy m && truthy d then
      some (jsValParseInt y, jsValParseInt m, jsValParseInt d)
    else none
  | .otherD => none

/-- `parseInt(blog.year, 10)` etc. on a record component. -/
def fieldInt : Option String → Option Int
  | some s => jsParseInt s
  | none => none

/-- JS strict equality on two possibly-`NaN` numbers. -/
def numEq : Option Int → Option Int → Bool
  | some a, some b => a == b
  | _, _ => false

def recMatches (t : Option Int × Option Int × Option Int) (b : Record) : Bool :=
  numEq (fieldInt b.year) t.1 && numEq (fieldInt b.month) t.2.1 && numEq (fieldInt b.day) t.2.2

/-- `BlogCache.getByDate` over the `getAll()` result. -/
def getByDateList (blogs : List Record) (dl : DateLike) : Option Record :=
  match normalizeDateLike dl with
  | none => none
  | some t => blogs.find? (recMatches t)

/-- The structured-object argument `{year: r.year, month: r.month,
day: r.day}` built from a record, as in the round-trip property. -/
def optToJsVal : Option String → JsVal
  | some s => .str s
  | none => .undef

def objOfRecord (r : Record) : DateLike :=
  .objD (optToJsVal r.year) (optToJsVal r.month) (optToJsVal r.day)

/-- Do a record's `year`/`month`/`day` components agree with its
(shape-valid) `date` string?  This holds for every record the parser
builds from its date metadata, unless extra metadata with key `year`,
`month` or `day` overrode a component. -/
def componentsOk (r : Record) : Bool :=
  match parseDateShape r.date, r.year, r.month, r.day with
  | some (y, mo, dy), some ys, some ms, some ds =>
    ys ≠ "" && ms ≠ "" && ds ≠ "" &&
      jsParseInt ys == some (y : Int) && jsParseInt ms == some (mo : Int) &&
      jsParseInt ds == some (dy : Int)
  | _, _, _, _ => false

/-! ### Search and pagination -/

/-- Dynamic property access `blog[field]` for the search. -/
def getFieldJs (b : Record) (f : String) : Option String :=
  if f = "fileName" then some b.fileName
  else if f = "filePath" then some b.filePath
  else if f = "date" then some b.date
  else if f = "title" then some b.title
  else if f = "desc" then some b.desc
  else if f = "content" then some b.content
  else if f = "year" then b.year
  else if f = "month" then b.month
  else if f = "day" then b.day
  else if f = "slug" then some b.slug
  else (b.extra.find? (fun kv => kv.1 = f)).map (fun kv => kv.2)

/-- `value && value.toLowerCase().includes(lowerKeyword)`. -/
def fieldMatchKw (v : Option String) (lowKw : List Char) : Bool :=
  match v with
  | some s => s ≠ "" && containsL (lowerL s.data) lowKw
  | none => false

/-- `BlogCache.search(keyword, fields)` over the `getAll()` result. -/
def searchList (blogs : List Record) (kw : String) (fields : List String) : List Record :=
  blogs.filter (fun b => fields.any (fun f => fieldMatchKw (getFieldJs b f) (lowerL kw.data)))

/-- The search branch of the router's list route (`GET /` and
`GET /api/posts` both run `blogSystem.cache.search(search)` when the
`search` query parameter is truthy): the default field list
`['title', 'desc']` applies. -/
def routerSearchBlogs (cfg : Config) (fs : FsDir) (cache : List Record) (q : String) :
    List Record :=
  searchList (getAllCache cfg fs cache) q ["title", "desc"]

structure PageMeta where
  currentPage : Int
  totalPages : Nat
  totalItems : Nat
  perPage : Nat
  hasNext : Bool
  hasPrev : Bool
  nextPage : Option Int
  prevPage : Option Int
deriving DecidableEq

structure PageResult where
  items : List Record
  pagination : PageMeta
deriving DecidableEq

/-- `Math.ceil(a / b)` on natural numbers (`b > 0` in every use). -/
def ceilDiv (a b : Nat) : Nat := (a + b - 1) / b

/-- `BlogCache.getPaginated(page, perPage)` over the `getAll()`
result. -/
def getPaginatedList (blogs : List Record) (page : Int) (perPage : Nat) : PageResult :=
  let totalItems := blogs.length
  let totalPages := ceilDiv totalItems perPage
  let currentPage : Int := max 1 (min page (totalPages : Int))
  let startIndex : Nat := ((currentPage - 1) * (perPage : Int)).toNat
  { items := (blogs.drop startIndex).take perPage
    pagination :=
      { currentPage := currentPage
        totalPages := totalPages
        totalItems := totalItems
        perPage := perPage
        hasNext := currentPage < (totalPages : Int)
        hasPrev := 1 < currentPage
        nextPage := if currentPage < (totalPages : Int) then some (currentPage + 1) else none
        prevPage := if 1 < currentPage then some (currentPage - 1) else none } }

/-! ### Concrete fixtures used by counterexamples and witnesses -/

def cfgD : Config :=
  { blogsDir := "/blogs", cache := true, sortOrder := "desc", metadataFormat := "html-comment" }

def fileA : FileEntry :=
  { name := "a.html", content := .ok "<title>A</title>\n<!-- [date: 2025-01-20] -->" }

def fileB : FileEntry :=
  { name := "b.html", content := .ok "<title>B</title>\n<!-- [date: 2025-01-20] -->" }

def fileE : FileEntry :=
  { name := "e.html", content := .ok "<title>E</title>\n<!-- [date: 2025-01-10] -->" }

/-- A plain record fixture. -/
def mkRec (t d c : String) (y mo dy : Option String) : Record :=
  { fileName := t ++ ".html", filePath := "/blogs/" ++ t ++ ".html", date := d, title := t
    desc := "No description available", content := c, year := y, month := mo, day := dy
    slug := t, extra := [] }

def recP1 : Record := mkRec "P1" "2025-01-03" "c1" (some "2025") (some "01") (some "03")
def recP2 : Record := mkRec "P2" "2025-01-02" "c2" (some "2025") (some "01") (some "02")
def recP3 : Record := mkRec "P3" "2025-01-01" "c3" (some "2025") (some "01") (some "01")

/-- A record whose keyword occurs only in the raw content. -/
def recZ : Record := mkRec "About cats" "2025-01-05" "a Zebra appears here"
  (some "2025") (some "01") (some "05")

/-- A file system with two files sharing the same date. -/
def fsAB : FsDir := FsDir.ok [fileA, fileB]

def recA5 : Record :=
  parseFile "html-comment" "/blogs/a.html" "<title>A</title>\n<!-- [date: 2025-01-20] -->"

def recB5 : Record :=
  parseFile "html-comment" "/blogs/b.html" "<title>B</title>\n<!-- [date: 2025-01-20] -->"

/-! ## Generic lemmas about the stable sort -/

theorem mem_insertJs {α : Type} {lt : α → α → Bool} {x y : α} {l : List α} :
    y ∈ insertJs lt x l ↔ y = x ∨ y ∈ l := by
  induction l with
  | nil => simp [insertJs]
  | cons z zs ih =>
    cases h : lt z x with
    | true =>
      simp only [insertJs, h, if_true, List.mem_cons, ih]
      tauto
    | false =>
      simp only [insertJs, h, Bool.false_eq_true, if_false, List.mem_cons]

theorem pairwise_insertJs {α : Type} {lt : α → α → Bool}
    (hasym : ∀ a b, lt a b = true → lt b a = false)
    (htrans : ∀ a b c, lt b a = false → lt c b = false → lt c a = false)
    {x : α} {l : List α} (hl : l.Pairwise (fun a b => lt b a = false)) :
    (insertJs lt x l).Pairwise (fun a b => lt b a = false) := by
  induction l with
  | nil => simp [insertJs]
  | cons y ys ih =>
    rcases List.pairwise_cons.mp hl with ⟨hy, hys⟩
    cases h : lt y x with
    | true =>
      simp only [insertJs, h, if_true]
      refine List.pairwise_cons.mpr ⟨?_, ih hys⟩
      intro z hz
      rcases mem_insertJs.mp hz with rfl | hz'
      · exact hasym y z h
      · exact hy z hz'
    | false =>
      simp only [insertJs, h, Bool.false_eq_true, if_false]
      refine List.pairwise_cons.mpr ⟨?_, hl⟩
      intro z hz
      rcases List.mem_cons.mp hz with rfl | hz'
      · exact h
      · exact htrans x y z h (hy z hz')

theorem pairwise_sortJs {α : Type} {lt : α → α → Bool}
    (hasym : ∀ a b, lt a b = true → lt b a = false)
    (htrans : ∀ a b c, lt b a = false → lt c b = false → lt c a = false)
    (l : List α) :
    (sortJs lt l).Pairwise (fun a b => lt b a = false) := by
  induction l with
  | nil => simp [sortJs]
  | cons x xs ih => exact pairwise_insertJs hasym htrans ih

theorem filter_insertJs_pos {α : Type} {lt : α → α → Bool} {q : α → Bool} {x : α} {l : List α}
    (hqx : q x = true) (hl : ∀ y, q y = true → lt y x = false) :
    (insertJs lt x l).filter q = x :: l.filter q := by
  induction l with
  | nil => simp [insertJs, hqx]
  | cons y ys ih =>
    cases h : lt y x with
    | true =>
      have hqy : q y = false := by
        cases hqy : q y
        · rfl
        · exact absurd h (by simp [hl y hqy])
      simp only [insertJs, h, if_true]
      simp [List.filter_cons, hqy, ih]
    | false =>
      simp only [insertJs, h, Bool.false_eq_true, if_false]
      simp [List.filter_cons, hqx]

theorem filter_insertJs_neg {α : Type} {lt : α → α → Bool} {q : α → Bool} {x : α} {l : List α}
    (hqx : q x = false) :
    (insertJs lt x l).filter q = l.filter q := by
  induction l with
  | nil => simp [insertJs, hqx]
  | cons y ys ih =>
    cases h : lt y x with
    | true =>
      simp only [insertJs, h, if_true]
      simp [List.filter_cons, ih]
    | false =>
      simp only [insertJs, h, Bool.false_eq_true, if_false]
      simp [List.filter_cons, hqx]

/-- Stability of the sort: the subsequence of elements of any one
tie-class is exactly the input subsequence. -/
theorem filter_sortJs {α : Type} {lt : α → α → Bool} {q : α → Bool}
    (hq : ∀ a b, q a = true → q b = true → lt a b = false) :
    ∀ l : List α, (sortJs lt l).filter q = l.filter q := by
  intro l
  induction l with
  | nil => simp [sortJs]
  | cons x xs ih =>
    by_cases hqx : q x = true
    · have : (insertJs lt x (sortJs lt xs)).filter q = x :: (sortJs lt xs).filter q :=
        filter_insertJs_pos hqx (fun y hy => hq y x hy hqx)
      simp [sortJs, this, ih, List.filter_cons, hqx]
    · have hqx' : q x = false := by
        cases h : q x
        · rfl
        · exact absurd h hqx
      have : (insertJs lt x (sortJs lt xs)).filter q = (sortJs lt xs).filter q :=
        filter_insertJs_neg hqx'
      simp [sortJs, this, ih, List.filter_cons, hqx']

/-! ## Claims C3 and C10: error behaviour of `refresh()` -/

/-- Claim C3, counterexample: when the directory listing throws (for
example a permission failure), `refresh()` does not propagate the
error; the outer catch swallows it and the call returns normally with
an empty collection. -/
theorem refresh_swallows_listing_error :
    refreshRun cfgD (FsDir.listError "EACCES: permission denied") = Except.ok [] ∧
    exceptOk (refreshRun cfgD (FsDir.listError "EACCES: permission denied")) = true :=
  ⟨rfl, rfl⟩

/-- Claim C3, amended: an I/O error thrown after the directory has
been found to exist (the directory-listing call itself throwing) is
caught by `refresh()`'s own handler: the call always returns normally,
and on a listing error the collection is reset to empty rather than
the error reaching the caller. -/
theorem refresh_returns_normally (cfg : Config) (fs : FsDir) :
    exceptOk (refreshRun cfg fs) = true ∧
    (∀ e, fs = FsDir.listError e → refreshRun cfg fs = Except.ok []) := by
  constructor
  · cases fs <;> rfl
  · intro e he
    subst he
    rfl

/-- Witness for `refresh_returns_normally` at a concrete failing file
system. -/
theorem refresh_returns_normally_witness :
    refreshRun cfgD (FsDir.listError "EIO") = Except.ok [] :=
  (refresh_returns_normally cfgD (FsDir.listError "EIO")).2 "EIO" rfl

/-- Claim C10: an error that is thrown inside `refresh()` after
directory scanning begins (i.e. one that reaches `refresh`'s own
handler — the per-file parse handler contains per-file errors) is
caught internally, the collection is reset to empty regardless of its
previous contents, and a subsequent read observes zero records. -/
theorem refresh_error_resets_cache (cfg : Config) (fs : FsDir) (e : String)
    (herr : refreshBody cfg fs = Except.error e) :
    refreshRun cfg fs = Except.ok [] ∧ refreshList cfg fs = [] ∧
    getAllCache cfg fs (refreshList cfg fs) = [] := by
  have h1 : refreshRun cfg fs = Except.ok [] := by
    unfold refreshRun
    rw [herr]
  have h2 : refreshList cfg fs = [] := by
    unfold refreshList
    rw [h1]
  refine ⟨h1, h2, ?_⟩
  rw [h2]
  unfold getAllCache
  simp [h2]

/-- Witness for `refresh_error_resets_cache`. -/
theorem refresh_error_resets_cache_witness :
    refreshRun cfgD (FsDir.listError "EACCES") = Except.ok [] ∧
    refreshList cfgD (FsDir.listError "EACCES") = [] ∧
    getAllCache cfgD (FsDir.listError "EACCES")
      (refreshList cfgD (FsDir.listError "EACCES")) = [] :=
  refresh_error_resets_cache cfgD (FsDir.listError "EACCES") "EACCES" rfl

/-! ## Claim C4: the collection is sorted per the configured order -/

theorem recBefore_hasym (so : String) (a b : Record) (h : recBefore so a b = true) :
    recBefore so b a = false := by
  unfold recBefore at h ⊢
  by_cases hso : so = "asc" <;> simp [hso] at h ⊢ <;> omega

theorem recBefore_htrans (so : String) (a b c : Record)
    (h1 : recBefore so b a = false) (h2 : recBefore so c b = false) :
    recBefore so c a = false := by
  unfold recBefore at h1 h2 ⊢
  by_cases hso : so = "asc" <;> simp [hso] at h1 h2 ⊢ <;> omega

/-- Ties under the comparator never strictly order each other. -/
theorem recBefore_tie (so : String) (a b : Record)
    (h : dateKeyOf a.date = dateKeyOf b.date) : recBefore so a b = false := by
  unfold recBefore
  by_cases hso : so = "asc" <;> simp [hso] <;> omega

/-- Claim C4: after `refresh()`, the collection is sorted by date per
the configured order — a record with strictly smaller date key comes
after (under `"desc"`) or before (under `"asc"`) one with a larger
key — and records with equal dates keep their input enumeration order
(stability). -/
theorem refresh_sorted_by_configured_order (cfg : Config) (files : List FileEntry) :
    (∀ (i j : Nat) (hi : i < (refreshList cfg (FsDir.ok files)).length)
        (hj : j < (refreshList cfg (FsDir.ok files)).length),
        dateKeyOf ((refreshList cfg (FsDir.ok files)).get ⟨i, hi⟩).date <
          dateKeyOf ((refreshList cfg (FsDir.ok files)).get ⟨j, hj⟩).date →
        (cfg.sortOrder = "asc" → i < j) ∧ (cfg.sortOrder ≠ "asc" → j < i)) ∧
    (∀ k : Nat, (refreshList cfg (FsDir.ok files)).filter (fun r => dateKeyOf r.date == k) =
        (validRecords cfg files).filter (fun r => dateKeyOf r.date == k)) := by
  have hps : (sortJs (recBefore cfg.sortOrder) (validRecords cfg files)).Pairwise
      (fun a b => recBefore cfg.sortOrder b a = false) :=
    pairwise_sortJs (recBefore_hasym cfg.sortOrder) (recBefore_htrans cfg.sortOrder) _
  have hget := List.pairwise_iff_get.mp hps
  constructor
  · intro i j hi hj hk
    constructor
    · intro hasc
      by_contra hij
      rcases Nat.lt_or_ge j i with hji | hge
      · have := hget ⟨j, hj⟩ ⟨i, hi⟩ hji
        simp only [recBefore] at this
        rw [if_pos hasc] at this
        simp only [decide_eq_false_iff_not] at this
        exact this hk
      · have : j = i := by omega
        subst this
        exact absurd hk (lt_irrefl _)
    · intro hne
      by_contra hji
      rcases Nat.lt_or_ge i j with hij | hge
      · have := hget ⟨i, hi⟩ ⟨j, hj⟩ hij
        simp only [recBefore] at this
        rw [if_neg hne] at this
        simp only [decide_eq_false_iff_not] at this
        exact this hk
      · have : i = j := by omega
        subst this
        exact absurd hk (lt_irrefl _)
  · intro k
    exact filter_sortJs
      (fun a b ha hb => recBefore_tie cfg.sortOrder a b
        (by
          have ha' := of_decide_eq_true ha
          have hb' := of_decide_eq_true hb
          omega))
      (validRecords cfg files)

/-- Witness for `refresh_sorted_by_configured_order`: two dated files
under the default descending order; the older record sits strictly
after the newer one. -/
theorem refresh_sorted_by_configured_order_witness :
    1 < (refreshList cfgD (FsDir.ok [fileE, fileA])).length ∧ (0 : Nat) < 1 := by
  refine ⟨by decide, ?_⟩
  exact ((refresh_sorted_by_configured_order cfgD [fileE, fileA]).1 1 0 (by decide) (by decide)
    (by decide)).2 (by decide)

/-! ## Claim C2: `getPaginated` beyond the last page -/

/-- Claim C2, counterexample: requesting page 99 of the 2-page
collection `[recP1, recP2, recP3]` with `perPage = 2` does NOT return
an empty items array: the page number is clamped to `totalPages = 2`
and the last page's items come back. -/
theorem getPaginated_overflow_returns_last_page :
    (getPaginatedList [recP1, recP2, recP3] 99 2).items = [recP3] ∧
    (getPaginatedList [recP1, recP2, recP3] 99 2).items ≠ [] ∧
    (getPaginatedList [recP1, recP2, recP3] 99 2).pagination.currentPage = 2 :=
  ⟨by decide, by decide, by decide⟩

/-- Claim C2, amended: for every non-empty collection and `perPage >
0`, a page number strictly greater than `totalPages` is clamped to
`totalPages`; the returned `currentPage` is that clamped value and the
items are the (non-empty) last page's slice, not an empty array. -/
theorem getPaginated_overflow_clamps (blogs : List Record) (page : Int) (perPage : Nat)
    (hne : blogs ≠ []) (hpp : 0 < perPage)
    (hover : ((ceilDiv blogs.length perPage : Nat) : Int) < page) :
    (getPaginatedList blogs page perPage).pagination.currentPage =
      ((ceilDiv blogs.length perPage : Nat) : Int) ∧
    (getPaginatedList blogs page perPage).items =
      (blogs.drop ((ceilDiv blogs.length perPage - 1) * perPage)).take perPage ∧
    (getPaginatedList blogs page perPage).items ≠ [] := by
  have hlen : 0 < blogs.length := List.length_pos.mpr hne
  have htp1 : 1 ≤ ceilDiv blogs.length perPage := by
    unfold ceilDiv
    exact (Nat.one_le_div_iff hpp).mpr (by omega)
  have hcp : max 1 (min page ((ceilDiv blogs.length perPage : Nat) : Int)) =
      ((ceilDiv blogs.length perPage : Nat) : Int) := by
    rw [min_eq_right (le_of_lt hover), max_eq_right]
    exact_mod_cast htp1
  have hstart : ((max 1 (min page ((ceilDiv blogs.length perPage : Nat) : Int)) - 1) *
      (perPage : Int)).toNat = (ceilDiv blogs.length perPage - 1) * perPage := by
    rw [hcp]
    have h1 : ((ceilDiv blogs.length perPage : Nat) : Int) - 1 =
        ((ceilDiv blogs.length perPage - 1 : Nat) : Int) := by
      omega
    rw [h1, ← Nat.cast_mul, Int.toNat_natCast]
  have hstartlt : (ceilDiv blogs.length perPage - 1) * perPage < blogs.length := by
    have h1 : ceilDiv blogs.length perPage - 1 = (blogs.length - 1) / perPage := by
      unfold ceilDiv
      have h2 : blogs.length + perPage - 1 = (blogs.length - 1) + perPage := by omega
      rw [h2, Nat.add_div_right _ hpp]
      exact Nat.add_sub_cancel _ _
    rw [h1]
    calc (blogs.length - 1) / perPage * perPage ≤ blogs.length - 1 :=
          Nat.div_mul_le_self _ _
      _ < blogs.length := by omega
  refine ⟨hcp, ?_, ?_⟩
  · show (blogs.drop ((max 1 (min page _) - 1) * (perPage : Int)).toNat).take perPage = _
    rw [hstart]
  · show (blogs.drop ((max 1 (min page _) - 1) * (perPage : Int)).toNat).take perPage ≠ []
    rw [hstart]
    apply List.ne_nil_of_length_pos
    rw [List.length_take, List.length_drop]
    omega

/-- Witness for `getPaginated_overflow_clamps` at the concrete 2-page
collection. -/
theorem getPaginated_overflow_clamps_witness :
    (getPaginatedList [recP1, recP2, recP3] 5 2).pagination.currentPage = 2 ∧
    (getPaginatedList [recP1, recP2, recP3] 5 2).items ≠ [] := by
  have h := getPaginated_overflow_clamps [recP1, recP2, recP3] 5 2
    (by decide) (by decide) (by decide)
  exact ⟨h.1, h.2.2⟩

/-! ## Claim C1: what the externally-exposed search matches on -/

/-- Claim C1, counterexample: a record whose content contains the
keyword but whose title and description do not is not returned by the
route-level search (which calls `cache.search` with the default field
list `['title', 'desc']`), even though the record is in `getAll()`. -/
theorem router_search_misses_content_keyword :
    routerSearchBlogs cfgD FsDir.missing [recZ] "zebra" = [] ∧
    getAllCache cfgD FsDir.missing [recZ] = [recZ] ∧
    containsL (lowerL recZ.content.data) (lowerL "zebra".data) = true :=
  ⟨by decide, by decide, by decide⟩

/-- Claim C1, amended: the externally-exposed search (the routing
layer's `blogSystem.cache.search(search)` call) matches only on
`title` and `desc` — the default field list — by case-insensitive
substring; the raw content is never consulted, so a keyword occurring
only in `content` yields no results. -/
theorem router_search_title_desc_only (cfg : Config) (fs : FsDir) (cache : List Record)
    (q : String) (_hq : q ≠ "") :
    routerSearchBlogs cfg fs cache q =
      (getAllCache cfg fs cache).filter
        (fun b => fieldMatchKw (some b.title) (lowerL q.data) ||
                  fieldMatchKw (some b.desc) (lowerL q.data)) := by
  unfold routerSearchBlogs searchList
  apply List.filter_congr
  intro b _
  have ht : getFieldJs b "title" = some b.title := rfl
  have hd : getFieldJs b "desc" = some b.desc := rfl
  simp [List.any_cons, List.any_nil, ht, hd]

/-- Witness for `router_search_title_desc_only` at a concrete search. -/
theorem router_search_title_desc_only_witness :
    routerSearchBlogs cfgD FsDir.missing [recZ] "cats" =
      (getAllCache cfgD FsDir.missing [recZ]).filter
        (fun b => fieldMatchKw (some b.title) (lowerL ("cats" : String).data) ||
                  fieldMatchKw (some b.desc) (lowerL ("cats" : String).data)) :=
  router_search_title_desc_only cfgD FsDir.missing [recZ] "cats" (by decide)

/-! ## Claim C6: pagination partitions the collection -/

theorem ceilDiv_succ (len pp : Nat) (hpp : 0 < pp) (hlen : 0 < len) :
    ceilDiv len pp = ceilDiv (len - pp) pp + 1 := by
  unfold ceilDiv
  rcases Nat.lt_or_ge pp len with h | h
  · have h1 : len + pp - 1 = (len - 1) + pp := by omega
    have h2 : len - pp + pp - 1 = (len - pp - 1) + pp := by omega
    rw [h1, h2, Nat.add_div_right _ hpp, Nat.add_div_right _ hpp]
    have h3 : len - 1 = (len - pp - 1) + pp := by omega
    rw [h3, Nat.add_div_right _ hpp]
  · have h0 : len - pp = 0 := by omega
    rw [h0]
    have h1 : len + pp - 1 = (len - 1) + pp := by omega
    rw [h1, Nat.add_div_right _ hpp]
    have h2 : (len - 1) / pp = 0 := Nat.div_eq_of_lt (by omega)
    have h3 : (0 + pp - 1) / pp = 0 := Nat.div_eq_of_lt (by omega)
    omega

/-- Concatenating the `perPage`-sized slices indexed `0, 1, …,
ceil(length / perPage) - 1` rebuilds the list. -/
theorem join_slices {α : Type} (pp : Nat) (hpp : 0 < pp) :
    ∀ (n : Nat) (l : List α), l.length = n →
      (List.range (ceilDiv l.length pp)).flatMap (fun k => (l.drop (k * pp)).take pp) = l := by
  intro n
  induction n using Nat.strong_induction_on with
  | _ n ih =>
    intro l hl
    cases l with
    | nil =>
      have h0 : ceilDiv 0 pp = 0 := Nat.div_eq_of_lt (by omega)
      simp [h0]
    | cons a t =>
      have hlen : 0 < (a :: t).length := by simp
      rw [ceilDiv_succ _ pp hpp hlen, List.range_succ_eq_map, List.flatMap_cons]
      have hdrop0 : ((a :: t).drop (0 * pp)).take pp = (a :: t).take pp := by simp
      have hmap : (List.map Nat.succ (List.range (ceilDiv ((a :: t).length - pp) pp))).flatMap
          (fun k => ((a :: t).drop (k * pp)).take pp) =
          (List.range (ceilDiv ((a :: t).length - pp) pp)).flatMap
            (fun k => (((a :: t).drop pp).drop (k * pp)).take pp) := by
        rw [List.flatMap_map]
        apply List.flatMap_congr
        intro k _
        have h1 : Nat.succ k * pp = k * pp + pp := Nat.succ_mul k pp
        rw [h1, ← List.drop_drop, List.drop_drop, List.drop_drop, Nat.add_comm]
      rw [hdrop0, hmap]
      have hlen2 : ((a :: t).drop pp).length = (a :: t).length - pp := List.length_drop _ _
      have hceil : ceilDiv ((a :: t).length - pp) pp = ceilDiv ((a :: t).drop pp).length pp := by
        rw [hlen2]
      rw [hceil, ih (((a :: t).drop pp).length) (by rw [hlen2]; omega) _ rfl]
      exact List.take_append_drop pp (a :: t)

/-- The items of the 1-based page `k + 1`, for a page index in range,
are the `k`-th slice. -/
theorem getPaginated_items_eq (blogs : List Record) (k : Nat) (perPage : Nat)
    (hk : k < ceilDiv blogs.length perPage) :
    (getPaginatedList blogs ((k : Int) + 1) perPage).items =
      (blogs.drop (k * perPage)).take perPage := by
  have h1 : ((k : Int) + 1) ≤ ((ceilDiv blogs.length perPage : Nat) : Int) := by
    exact_mod_cast hk
  have hcp : max 1 (min ((k : Int) + 1) ((ceilDiv blogs.length perPage : Nat) : Int)) =
      (k : Int) + 1 := by
    rw [min_eq_left h1, max_eq_right (by omega)]
  show (blogs.drop ((max 1 (min ((k : Int) + 1) _) - 1) * (perPage : Int)).toNat).take perPage = _
  rw [hcp]
  have h2 : ((k : Int) + 1 - 1) * (perPage : Int) = ((k * perPage : Nat) : Int) := by
    push_cast
    ring
  rw [h2, Int.toNat_natCast]

/-- Claim C6: for every collection, `perPage > 0` and valid page
number, `getPaginated` returns at most `perPage` items, reports
`totalPages = ceil(totalItems / perPage)`, and the pages `1 ..
totalPages` concatenate, in order, to exactly the `getAll()` result. -/
theorem getPaginated_partition (blogs : List Record) (page : Int) (perPage : Nat)
    (hpp : 0 < perPage)
    (_hpage : 1 ≤ page ∧ page ≤ ((ceilDiv blogs.length perPage : Nat) : Int)) :
    (getPaginatedList blogs page perPage).items.length ≤ perPage ∧
    (getPaginatedList blogs page perPage).pagination.totalPages =
      ceilDiv blogs.length perPage ∧
    (List.range (ceilDiv blogs.length perPage)).flatMap
        (fun k => (getPaginatedList blogs ((k : Int) + 1) perPage).items) = blogs := by
  refine ⟨?_, rfl, ?_⟩
  · show ((blogs.drop _).take perPage).length ≤ perPage
    rw [List.length_take]
    exact min_le_left _ _
  · have hrw : (List.range (ceilDiv blogs.length perPage)).flatMap
        (fun k => (getPaginatedList blogs ((k : Int) + 1) perPage).items) =
        (List.range (ceilDiv blogs.length perPage)).flatMap
          (fun k => (blogs.drop (k * perPage)).take perPage) := by
      apply List.flatMap_congr
      intro k hk
      exact getPaginated_items_eq blogs k perPage (List.mem_range.mp hk)
    rw [hrw]
    exact join_slices perPage hpp blogs.length blogs rfl

/-- Witness for `getPaginated_partition` at a concrete collection. -/
theorem getPaginated_partition_witness :
    (getPaginatedList [recP1, recP2, recP3] 2 2).items.length ≤ 2 ∧
    (getPaginatedList [recP1, recP2, recP3] 2 2).pagination.totalPages =
      ceilDiv ([recP1, recP2, recP3] : List Record).length 2 ∧
    (List.range (ceilDiv ([recP1, recP2, recP3] : List Record).length 2)).flatMap
        (fun k => (getPaginatedList [recP1, recP2, recP3] ((k : Int) + 1) 2).items) =
      [recP1, recP2, recP3] :=
  getPaginated_partition [recP1, recP2, recP3] 2 2 (by decide) ⟨by decide, by decide⟩

/-! ## Claim C5: `getByDate` round-trips -/

theorem find?_exists {α : Type} {p : α → Bool} {l : List α} {x : α}
    (hx : x ∈ l) (hpx : p x = true) :
    ∃ y, l.find? p = some y ∧ p y = true := by
  induction l with
  | nil => cases hx
  | cons a t ih =>
    cases h : p a with
    | true => exact ⟨a, List.find?_cons_of_pos _ h, h⟩
    | false =>
      have hxt : x ∈ t := by
        rcases List.mem_cons.mp hx with rfl | hx'
        · rw [h] at hpx
          cases hpx
        · exact hx'
      rcases ih hxt with ⟨y, hy, hpy⟩
      exact ⟨y, by rw [List.find?_cons_of_neg _ (by simp [h])]; exact hy, hpy⟩

theorem find?_unique {α : Type} {p : α → Bool} {l : List α} {x : α}
    (hx : x ∈ l) (hpx : p x = true) (hu : ∀ b ∈ l, p b = true → b = x) :
    l.find? p = some x := by
  induction l with
  | nil => cases hx
  | cons a t ih =>
    cases h : p a with
    | true => rw [List.find?_cons_of_pos _ h, hu a (List.mem_cons_self _ _) h]
    | false =>
      have hxt : x ∈ t := by
        rcases List.mem_cons.mp hx with rfl | hx'
        · rw [h] at hpx
          cases hpx
        · exact hx'
      rw [List.find?_cons_of_neg _ (by simp [h])]
      exact ih hxt (fun b hb hpb => hu b (List.mem_cons_of_mem _ hb) hpb)

theorem numEq_some {a : Option Int} {y : Int} (h : numEq a (some y) = true) : a = some y := by
  cases a with
  | none => simp [numEq] at h
  | some v =>
    simp [numEq] at h
    rw [h]

/-- Claim C5, counterexample: two files share the date `2025-01-20`;
for the second record `recB5` of `getAll()`'s result, the
structured-object round trip returns the FIRST record with that date,
which is a different record — `getByDate` does not return a record
equal to `recB5`. -/
theorem getByDate_duplicate_date_shadows :
    getAllCache cfgD fsAB [] = [recA5, recB5] ∧
    recB5 ∈ getAllCache cfgD fsAB [] ∧
    getByDateList (getAllCache cfgD fsAB []) (objOfRecord recB5) = some recA5 ∧
    recA5 ≠ recB5 :=
  ⟨by decide, by decide, by decide, by decide⟩

/-- Claim C5, amended: for a record `r` of the collection whose
`year`/`month`/`day` components are consistent with its date (as the
parser produces unless extra metadata overrode a component),
`getByDate({year: r.year, month: r.month, day: r.day})` returns the
first record carrying `r`'s date triple — hence a record with exactly
`r`'s components, and `r` itself whenever no other record shares its
date.  For a date (in any accepted shape) matching no record,
`getByDate` returns the not-found signal `none`; it never throws (it
is a total function by construction). -/
theorem getByDate_roundtrip (blogs : List Record) (r : Record)
    (hr : r ∈ blogs) (hc : componentsOk r = true) :
    (∃ r', getByDateList blogs (objOfRecord r) = some r' ∧
        fieldInt r'.year = fieldInt r.year ∧ fieldInt r'.month = fieldInt r.month ∧
        fieldInt r'.day = fieldInt r.day) ∧
    ((∀ b ∈ blogs,
        recMatches (fieldInt r.year, fieldInt r.month, fieldInt r.day) b = true → b = r) →
      getByDateList blogs (objOfRecord r) = some r) ∧
    (∀ dl : DateLike,
      (∀ t, normalizeDateLike dl = some t → ∀ b ∈ blogs, recMatches t b = false) →
      getByDateList blogs dl = none) := by
  unfold componentsOk at hc
  split at hc
  case h_2 => cases hc
  case h_1 y mo dy ys ms ds hshape hy hm hd =>
    simp only [Bool.and_eq_true, decide_eq_true_eq, beq_iff_eq] at hc
    obtain ⟨⟨⟨⟨⟨hys, hms⟩, hds⟩, hpy⟩, hpm⟩, hpd⟩ := hc
    have hfy : fieldInt r.year = some (y : Int) := by rw [hy]; exact hpy
    have hfm : fieldInt r.month = some (mo : Int) := by rw [hm]; exact hpm
    have hfd : fieldInt r.day = some (dy : Int) := by rw [hd]; exact hpd
    have hnorm : normalizeDateLike (objOfRecord r) =
        some (fieldInt r.year, fieldInt r.month, fieldInt r.day) := by
      rw [hfy, hfm, hfd]
      unfold objOfRecord normalizeDateLike
      rw [hy, hm, hd]
      simp only [optToJsVal, truthy, jsValParseInt]
      rw [if_pos (by simp [hys, hms, hds])]
      rw [hpy, hpm, hpd]
    have hmr : recMatches (fieldInt r.year, fieldInt r.month, fieldInt r.day) r = true := by
      unfold recMatches
      rw [hfy, hfm, hfd]
      simp [numEq]
    refine ⟨?_, ?_, ?_⟩
    · rcases find?_exists hr hmr with ⟨r', hfind, hpr'⟩
      unfold recMatches at hpr'
      simp only [Bool.and_eq_true] at hpr'
      obtain ⟨⟨hp1, hp2⟩, hp3⟩ := hpr'
      rw [hfy] at hp1
      rw [hfm] at hp2
      rw [hfd] at hp3
      refine ⟨r', ?_, ?_, ?_, ?_⟩
      · unfold getByDateList
        rw [hnorm]
        exact hfind
      · rw [numEq_some hp1, hfy]
      · rw [numEq_some hp2, hfm]
      · rw [numEq_some hp3, hfd]
    · intro hu
      unfold getByDateList
      rw [hnorm]
      exact find?_unique hr hmr hu
    · intro dl hnone
      unfold getByDateList
      cases hn : normalizeDateLike dl with
      | none => rfl
      | some t =>
        apply List.find?_eq_none.mpr
        intro b hb
        simp [hnone t hn b hb]

/-- Witness for `getByDate_roundtrip` at a one-record collection. -/
theorem getByDate_roundtrip_witness :
    componentsOk recP1 = true ∧
    getByDateList [recP1] (objOfRecord recP1) = some recP1 := by
  refine ⟨by decide, ?_⟩
  exact (getByDate_roundtrip [recP1] recP1 (by decide) (by decide)).2.1 (by decide)

/-! ## Claim C7: shape of generated slugs -/

theorem toNat_ofNatAux (n : Nat) (h : n.isValidChar) : (Char.ofNatAux n h).toNat = n := by
  simp [Char.ofNatAux, Char.toNat, UInt32.toNat]

/-- `Char.toLower` never produces an upper-case ASCII letter. -/
theorem toLower_not_upper (c : Char) : ¬ ('A' ≤ c.toLower ∧ c.toLower ≤ 'Z') := by
  unfold Char.toLower
  by_cases h : c.toNat ≥ 65 ∧ c.toNat ≤ 90
  · rw [if_pos h]
    have hv : (c.toNat + 32).isValidChar := Or.inl (by omega)
    unfold Char.ofNat
    rw [dif_pos hv]
    intro hcon
    have h1 : 65 ≤ (Char.ofNatAux (c.toNat + 32) hv).toNat := hcon.1
    have h2 : (Char.ofNatAux (c.toNat + 32) hv).toNat ≤ 90 := hcon.2
    rw [toNat_ofNatAux] at h1 h2
    omega
  · rw [if_neg h]
    intro hcon
    exact h ⟨hcon.1, hcon.2⟩

/-- Every character a run-squash emits is the replacement character or
an input character outside the squashed class. -/
theorem mem_squashRuns {p : Char → Bool} {repl : Char} {c : Char} :
    ∀ {l : List Char} {b : Bool}, c ∈ squashRuns p repl l b →
      c = repl ∨ (c ∈ l ∧ p c = false) := by
  intro l
  induction l with
  | nil => intro b hc; cases hc
  | cons a t ih =>
    intro b hc
    rw [squashRuns] at hc
    cases hp : p a with
    | true =>
      rw [hp, if_pos rfl] at hc
      cases b with
      | true =>
        rw [if_pos rfl, List.nil_append] at hc
        rcases ih hc with h | ⟨h1, h2⟩
        · exact Or.inl h
        · exact Or.inr ⟨List.mem_cons_of_mem _ h1, h2⟩
      | false =>
        rw [if_neg (by simp), List.singleton_append] at hc
        rcases List.mem_cons.mp hc with rfl | hc'
        · exact Or.inl rfl
        · rcases ih hc' with h | ⟨h1, h2⟩
          · exact Or.inl h
          · exact Or.inr ⟨List.mem_cons_of_mem _ h1, h2⟩
    | false =>
      rw [hp, if_neg (by simp)] at hc
      rcases List.mem_cons.mp hc with rfl | hc'
      · exact Or.inr ⟨List.mem_cons_self _ _, hp⟩
      · rcases ih hc' with h | ⟨h1, h2⟩
        · exact Or.inl h
        · exact Or.inr ⟨List.mem_cons_of_mem _ h1, h2⟩

/-- Squashing hyphen runs yields a list with no two adjacent hyphens;
moreover in the `inRun` state the output never starts with a hyphen. -/
theorem squashDash_noDD (l : List Char) :
    noDD (squashRuns (fun c => c = '-') '-' l false) = true ∧
    noDD (squashRuns (fun c => c = '-') '-' l true) = true ∧
    headDash (squashRuns (fun c => c = '-') '-' l true) = false := by
  induction l with
  | nil => exact ⟨rfl, rfl, rfl⟩
  | cons a t ih =>
    obtain ⟨ihA, ihB, ihC⟩ := ih
    by_cases hp : a = '-'
    · subst hp
      have hf : squashRuns (fun c => c = '-') '-' ('-' :: t) false =
          '-' :: squashRuns (fun c => c = '-') '-' t true := by
        simp [squashRuns]
      have ht : squashRuns (fun c => c = '-') '-' ('-' :: t) true =
          squashRuns (fun c => c = '-') '-' t true := by
        simp [squashRuns]
      refine ⟨?_, ?_, ?_⟩
      · rw [hf, noDD]
        simp [ihB, ihC]
      · rw [ht]
        exact ihB
      · rw [ht]
        exact ihC
    · have hf : squashRuns (fun c => c = '-') '-' (a :: t) false =
          a :: squashRuns (fun c => c = '-') '-' t false := by
        simp [squashRuns, hp]
      have ht : squashRuns (fun c => c = '-') '-' (a :: t) true =
          a :: squashRuns (fun c => c = '-') '-' t false := by
        simp [squashRuns, hp]
      refine ⟨?_, ?_, ?_⟩
      · rw [hf, noDD]
        simp [hp, ihA]
      · rw [ht, noDD]
        simp [hp, ihA]
      · rw [ht, headDash]
        simp [hp]

theorem dropWhile_of_all_false {p : Char → Bool} {l : List Char}
    (h : ∀ c ∈ l, p c = false) : l.dropWhile p = l := by
  cases l with
  | nil => rfl
  | cons a t =>
    rw [List.dropWhile_cons, h a (List.mem_cons_self _ _)]
    simp

theorem trimL_of_no_ws {l : List Char} (h : ∀ c ∈ l, jsWs c = false) : trimL l = l := by
  unfold trimL
  rw [dropWhile_of_all_false h]
  rw [dropWhile_of_all_false (fun c hc => h c (List.mem_reverse.mp hc))]
  exact List.reverse_reverse l

/-- Claim C7, counterexample: the slug of `" hello"` keeps a leading
hyphen — the final `trim()` strips only whitespace, and after the
whitespace runs were replaced by hyphens none remains to strip. -/
theorem generateSlug_keeps_leading_hyphen :
    generateSlug " hello" = "-hello" ∧
    (generateSlug " hello").data.head? = some '-' :=
  ⟨rfl, rfl⟩

/-- Claim C7, amended: every generated slug consists solely of
lower-case word characters and hyphens, with whitespace runs collapsed
into hyphens and no two adjacent hyphens; but a leading or trailing
hyphen (from boundary whitespace or an original hyphen) is kept,
because the final `trim()` removes only whitespace. -/
theorem generateSlug_charset (title : String) :
    (generateSlug title).data.all slugChar = true ∧
    noDD (generateSlug title).data = true := by
  have hdata : (generateSlug title).data =
      trimL (squashRuns (fun c => c = '-') '-'
        (squashRuns jsWs '-'
          ((lowerL title.data).filter (fun c => isWordC c || jsWs c || c = '-')) false) false) :=
    rfl
  have hs3ws : ∀ c ∈ squashRuns jsWs '-'
      ((lowerL title.data).filter (fun c => isWordC c || jsWs c || c = '-')) false,
      jsWs c = false := by
    intro c hc
    rcases mem_squashRuns hc with rfl | ⟨_, h2⟩
    · rfl
    · exact h2
  have hs4ws : ∀ c ∈ squashRuns (fun c => c = '-') '-'
      (squashRuns jsWs '-'
        ((lowerL title.data).filter (fun c => isWordC c || jsWs c || c = '-')) false) false,
      jsWs c = false := by
    intro c hc
    rcases mem_squashRuns hc with rfl | ⟨h1, _⟩
    · rfl
    · exact hs3ws c h1
  rw [hdata, trimL_of_no_ws hs4ws]
  constructor
  · rw [List.all_eq_true]
    intro c hc
    rcases mem_squashRuns hc with rfl | ⟨h1, _⟩
    · rfl
    · rcases mem_squashRuns h1 with rfl | ⟨h2, hnws⟩
      · rfl
      · rcases List.mem_filter.mp h2 with ⟨h3, hkeep⟩
        rcases List.mem_map.mp h3 with ⟨x, _, rfl⟩
        simp only [Bool.or_eq_true] at hkeep
        rcases hkeep with (hw | hws) | hdash
        · have hnup := toLower_not_upper x
          unfold isWordC at hw
          simp only [Bool.or_eq_true, Bool.and_eq_true, decide_eq_true_eq] at hw
          unfold slugChar
          rcases hw with ((hlz | huz) | hdig) | hund
          · simp [hlz.1, hlz.2]
          · exact absurd ⟨huz.1, huz.2⟩ hnup
          · unfold isDigitC at hdig
            simp only [Bool.and_eq_true, decide_eq_true_eq] at hdig
            simp [hdig.1, hdig.2]
          · simp [hund]
        · rw [hws] at hnws
          cases hnws
        · simp only [decide_eq_true_eq] at hdash
          simp [slugChar, hdash]
  · exact (squashDash_noDD _).1

/-! ## Claim C8: keys of the extra-metadata map -/

/-- `setKey` preserves the key guard, provided the new key passes
it. -/
theorem setKey_keys {m : List (String × String)} {k v : String}
    (hm : m.all (fun kv => extraKeyOk kv.1) = true) (hk : extraKeyOk k = true) :
    (setKey m k v).all (fun kv => extraKeyOk kv.1) = true := by
  unfold setKey
  rw [List.all_eq_true] at hm
  by_cases h : m.any (fun kv => kv.1 = k) = true
  · rw [if_pos h, List.all_eq_true]
    intro kv hkv
    rcases List.mem_map.mp hkv with ⟨kv0, hkv0, hkv0eq⟩
    by_cases hk0 : kv0.1 = k
    · rw [if_pos hk0] at hkv0eq
      rw [← hkv0eq]
      exact hk
    · rw [if_neg hk0] at hkv0eq
      rw [← hkv0eq]
      exact hm kv0 hkv0
  · rw [if_neg h, List.all_eq_true]
    intro kv hkv
    rcases List.mem_append.mp hkv with hkv' | hkv'
    · exact hm kv hkv'
    · rw [List.mem_singleton.mp hkv']
      exact hk

/-- The fold building `extra` only ever stores keys that pass the
`date`/`desc` guard. -/
theorem extraFold_keys (l : List (String × String)) :
    ∀ m : List (String × String),
      m.all (fun kv => extraKeyOk kv.1) = true →
      (l.foldl
        (fun m kv =>
          if kv.1 ≠ "date" ∧ kv.1 ≠ "desc" then setKey m kv.1 (⟨trimL kv.2.data⟩ : String)
          else m)
        m).all (fun kv => extraKeyOk kv.1) = true := by
  induction l with
  | nil => intro m hm; exact hm
  | cons kv0 t ih =>
    intro m hm
    rw [List.foldl_cons]
    by_cases hg : kv0.1 ≠ "date" ∧ kv0.1 ≠ "desc"
    · rw [if_pos hg]
      refine ih _ (setKey_keys hm ?_)
      unfold extraKeyOk
      simp only [Bool.and_eq_true, Bool.not_eq_true', beq_eq_false_iff_ne, ne_eq]
      exact ⟨hg.1, hg.2⟩
    · rw [if_neg hg]
      exact ih _ hm

theorem assignField_date {r : Record} {k v : String} (hk : k ≠ "date") :
    (assignField r k v).date = r.date := by
  unfold assignField
  split_ifs <;> first | rfl | simp_all

theorem assignField_desc {r : Record} {k v : String} (hk : k ≠ "desc") :
    (assignField r k v).desc = r.desc := by
  unfold assignField
  split_ifs <;> first | rfl | simp_all

theorem applyExtra_date (ex : List (String × String)) :
    ∀ r : Record, (∀ kv ∈ ex, kv.1 ≠ "date") → (applyExtra r ex).date = r.date := by
  induction ex with
  | nil => intro r _; rfl
  | cons kv t ih =>
    intro r h
    unfold applyExtra
    rw [List.foldl_cons]
    have := ih (assignField r kv.1 kv.2) (fun kv' hkv' => h kv' (List.mem_cons_of_mem _ hkv'))
    unfold applyExtra at this
    rw [this, assignField_date (h kv (List.mem_cons_self _ _))]

theorem applyExtra_desc (ex : List (String × String)) :
    ∀ r : Record, (∀ kv ∈ ex, kv.1 ≠ "desc") → (applyExtra r ex).desc = r.desc := by
  induction ex with
  | nil => intro r _; rfl
  | cons kv t ih =>
    intro r h
    unfold applyExtra
    rw [List.foldl_cons]
    have := ih (assignField r kv.1 kv.2) (fun kv' hkv' => h kv' (List.mem_cons_of_mem _ hkv'))
    unfold applyExtra at this
    rw [this, assignField_desc (h kv (List.mem_cons_self _ _))]

/-- Claim C8, counterexample: the custom-metadata scan excludes only
the keys `date` and `desc`, so a comment `[content: boom]` lands in
the extra map under the core field name `content`, and merging it onto
the assembled record overwrites the raw-content core field. -/
theorem extra_contains_core_field_key :
    ("content", "boom") ∈ (parseHtmlCommentMetadata "<!-- [content: boom] -->").extra ∧
    (parseFile "html-comment" "/blogs/x.html" "<!-- [content: boom] -->").content = "boom" ∧
    ("<!-- [content: boom] -->" : String) ≠ "boom" :=
  ⟨by decide, by decide, by decide⟩

/-- Claim C8, amended: the extra-metadata map never contains the keys
`date` or `desc` (the only core names the extractor's guard excludes),
so merging can never overwrite the `date` and `desc` fields; but every
other core field name (`content`, `title`, `year`, …) can appear as an
extra key and then does overwrite the corresponding core field. -/
theorem extra_keys_avoid_date_desc (content : String) (r : Record) :
    (parseHtmlCommentMetadata content).extra.all
      (fun kv => extraKeyOk kv.1) = true ∧
    (applyExtra r (parseHtmlCommentMetadata content).extra).date = r.date ∧
    (applyExtra r (parseHtmlCommentMetadata content).extra).desc = r.desc := by
  have hall : (parseHtmlCommentMetadata content).extra.all
      (fun kv => extraKeyOk kv.1) = true :=
    extraFold_keys (scanMeta content.data) [] rfl
  refine ⟨hall, ?_, ?_⟩
  · apply applyExtra_date
    intro kv hkv
    have h := List.all_eq_true.mp hall kv hkv
    unfold extraKeyOk at h
    simp only [Bool.and_eq_true, Bool.not_eq_true', beq_eq_false_iff_ne, ne_eq] at h
    exact h.1
  · apply applyExtra_desc
    intro kv hkv
    have h := List.all_eq_true.mp hall kv hkv
    unfold extraKeyOk at h
    simp only [Bool.and_eq_true, Bool.not_eq_true', beq_eq_false_iff_ne, ne_eq] at h
    exact h.2

/-! ## Claim C9: characterization of `isValidDate` -/

theorem daysInMonth_ge (y m : Nat) : 28 ≤ daysInMonth y m := by
  unfold daysInMonth
  split_ifs <;> omega

/-- The month index stays within `0..11` through normalization. -/
theorem normDay_M_le : ∀ (fuel y m d : Nat), m ≤ 11 → (normDay fuel y m d).2.1 ≤ 11 := by
  intro fuel
  induction fuel with
  | zero => intro y m d hm; exact hm
  | succ f ih =>
    intro y m d hm
    rw [normDay]
    by_cases h0 : d = 0
    · rw [if_pos h0]
      by_cases hm0 : m = 0
      · rw [if_pos hm0]
        exact ih _ _ _ (by omega)
      · rw [if_neg hm0]
        exact ih _ _ _ (by omega)
    · rw [if_neg h0]
      by_cases hc : daysInMonth y m < d
      · rw [if_pos hc]
        by_cases hm11 : m = 11
        · rw [if_pos hm11]
          exact ih _ _ _ (by omega)
        · rw [if_neg hm11]
          exact ih _ _ _ (by omega)
      · rw [if_neg hc]
        exact hm

/-- A day already in range is a fixed point of the normalization. -/
theorem normDay_fix (fuel y m d : Nat) (h1 : 1 ≤ d) (h2 : d ≤ daysInMonth y m) :
    normDay (fuel + 1) y m d = (y, m, d) := by
  rw [normDay, if_neg (by omega), if_neg (by omega)]

/-- For a positive day count, normalization never moves the
(year, month) position backwards. -/
theorem normDay_pos_mono : ∀ (fuel y m d : Nat), 1 ≤ d →
    12 * y + m ≤ 12 * (normDay fuel y m d).1 + (normDay fuel y m d).2.1 := by
  intro fuel
  induction fuel with
  | zero => intro y m d _; exact le_refl _
  | succ f ih =>
    intro y m d hd
    rw [normDay, if_neg (by omega)]
    by_cases hc : daysInMonth y m < d
    · rw [if_pos hc]
      by_cases hm11 : m = 11
      · rw [if_pos hm11]
        have := ih (y + 1) 0 (d - daysInMonth y m) (by omega)
        omega
      · rw [if_neg hm11]
        have := ih y (m + 1) (d - daysInMonth y m) (by omega)
        omega
    · rw [if_neg hc]

/-- Normalization moves the (year, month) position back by at most one
month (the single possible borrow when the day is `0`). -/
theorem normDay_pos_lb (fuel y m d : Nat) :
    12 * y + m ≤ 12 * (normDay fuel y m d).1 + (normDay fuel y m d).2.1 + 1 := by
  cases fuel with
  | zero =>
    show 12 * y + m ≤ 12 * y + m + 1
    omega
  | succ f =>
    by_cases h0 : d = 0
    · rw [normDay, if_pos h0]
      by_cases hm0 : m = 0
      · rw [if_pos hm0]
        have h28 := daysInMonth_ge (y - 1) 11
        have := normDay_pos_mono f (y - 1) 11 (daysInMonth (y - 1) 11) (by omega)
        omega
      · rw [if_neg hm0]
        have h28 := daysInMonth_ge y (m - 1)
        have := normDay_pos_mono f y (m - 1) (daysInMonth y (m - 1)) (by omega)
        omega
    · have := normDay_pos_mono (f + 1) y m d (by omega)
      omega

/-- The semantic check, characterized: it accepts exactly the real
calendar dates with a month in `1..12`, a day within the month of the
(constructor-adjusted) year, and a year of at least `100`. -/
theorem jsDateCheck_eq (y mo dy : Nat) :
    jsDateCheck y mo dy = (realDate y mo dy && decide (100 ≤ y)) := by
  simp only [jsDateCheck]
  by_cases hy : y ≤ 99
  · -- the constructor reads the year as 1900 + y, so the year
    -- comparison always fails
    rw [if_pos hy]
    have hM : ((y + 1900) * 12 + mo - 1) % 12 ≤ 11 := by
      have := Nat.mod_lt ((y + 1900) * 12 + mo - 1) (show 0 < 12 by omega)
      omega
    have hMle := normDay_M_le 5 (((y + 1900) * 12 + mo - 1) / 12)
      (((y + 1900) * 12 + mo - 1) % 12) dy hM
    have hlb := normDay_pos_lb 5 (((y + 1900) * 12 + mo - 1) / 12)
      (((y + 1900) * 12 + mo - 1) % 12) dy
    have hdm : 12 * (((y + 1900) * 12 + mo - 1) / 12) + ((y + 1900) * 12 + mo - 1) % 12 =
        (y + 1900) * 12 + mo - 1 := by
      have := Nat.div_add_mod ((y + 1900) * 12 + mo - 1) 12
      omega
    have hY : ((normDay 5 (((y + 1900) * 12 + mo - 1) / 12)
        (((y + 1900) * 12 + mo - 1) % 12) dy).1 == y) = false := by
      rw [beq_eq_false_iff_ne]
      omega
    have hdec : decide (100 ≤ y) = false := by
      simp only [decide_eq_false_iff_not]
      omega
    simp [hY, hdec]
  · rw [if_neg hy]
    have hy100 : 100 ≤ y := by omega
    by_cases hmo0 : mo = 0
    · -- month index −1 can never equal the result's month field
      subst hmo0
      have hM2 : ((normDay 5 ((y * 12 + 0 - 1) / 12) ((y * 12 + 0 - 1) % 12) dy).2.1 ==
          ((0 : Nat) : Int) - 1) = false := by
        rw [beq_eq_false_iff_ne]
        intro hcon
        omega
      rw [hM2]
      simp [realDate]
    · by_cases hmo13 : 13 ≤ mo
      · -- month index ≥ 12 exceeds the normalized month range 0..11
        have hM : (y * 12 + mo - 1) % 12 ≤ 11 := by
          have := Nat.mod_lt (y * 12 + mo - 1) (show 0 < 12 by omega)
          omega
        have hMle := normDay_M_le 5 ((y * 12 + mo - 1) / 12) ((y * 12 + mo - 1) % 12) dy hM
        have hM2 : ((normDay 5 ((y * 12 + mo - 1) / 12) ((y * 12 + mo - 1) % 12) dy).2.1 ==
            ((mo : Nat) : Int) - 1) = false := by
          rw [beq_eq_false_iff_ne]
          intro hcon
          omega
        rw [hM2]
        have : (decide (mo ≤ 12)) = false := by simp; omega
        simp [realDate, this]
      · -- 1 ≤ mo ≤ 12: the months quotient/remainder are exact
        have hmo1 : 1 ≤ mo := by omega
        have hmo12 : mo ≤ 12 := by omega
        have hsplit : y * 12 + mo - 1 = 12 * y + (mo - 1) := by omega
        have hdiv : (y * 12 + mo - 1) / 12 = y := by
          rw [hsplit, Nat.mul_add_div (by omega)]
          have : (mo - 1) / 12 = 0 := Nat.div_eq_of_lt (by omega)
          omega
        have hmod : (y * 12 + mo - 1) % 12 = mo - 1 := by
          rw [hsplit, Nat.mul_add_mod]
          exact Nat.mod_eq_of_lt (by omega)
        rw [hdiv, hmod]
        by_cases hdy0 : dy = 0
        · -- a zero day borrows into the previous month
          subst hdy0
          by_cases hmo1' : mo = 1
          · subst hmo1'
            have hstep : normDay 5 y (1 - 1) 0 = (y - 1, 11, daysInMonth (y - 1) 11) := by
              rw [show (1 : Nat) - 1 = 0 from rfl]
              rw [normDay, if_pos rfl, if_pos rfl]
              exact normDay_fix 3 _ _ _ (by have := daysInMonth_ge (y - 1) 11; omega)
                (le_refl _)
            rw [hstep]
            have hY : ((y - 1 : Nat) == y) = false := by
              rw [beq_eq_false_iff_ne]
              omega
            simp [realDate, hY]
          · have hstep : normDay 5 y (mo - 1) 0 = (y, mo - 2, daysInMonth y (mo - 2)) := by
              rw [normDay, if_pos rfl, if_neg (show ¬(mo - 1 = 0) by omega)]
              have h21 : mo - 1 - 1 = mo - 2 := by omega
              rw [h21]
              exact normDay_fix 3 _ _ _ (by have := daysInMonth_ge y (mo - 2); omega)
                (le_refl _)
            rw [hstep]
            have hM2 : (((mo - 2 : Nat) : Int) == ((mo : Nat) : Int) - 1) = false := by
              rw [beq_eq_false_iff_ne]
              intro hcon
              omega
            simp [realDate, hM2]
        · by_cases hin : dy ≤ daysInMonth y (mo - 1)
          · -- in range: the date is reproduced exactly
            rw [normDay_fix 4 y (mo - 1) dy (by omega) hin]
            have h1 : (y == y) = true := by simp
            have h2 : (((mo - 1 : Nat) : Int) == ((mo : Nat) : Int) - 1) = true := by
              rw [beq_iff_eq]
              omega
            have h3 : (dy == dy) = true := by simp
            rw [h1, h2, h3]
            have : realDate y mo dy = true := by
              unfold realDate
              simp only [Bool.and_eq_true, decide_eq_true_eq]
              exact ⟨⟨⟨hmo1, hmo12⟩, by omega⟩, hin⟩
            simp [this, hy100]
          · -- beyond the month: at least one carry moves the position
            have hgt : daysInMonth y (mo - 1) < dy := by omega
            have hpos : 12 * y + mo ≤
                12 * (normDay 5 y (mo - 1) dy).1 + (normDay 5 y (mo - 1) dy).2.1 := by
              by_cases h11 : mo - 1 = 11
              · have hstep : normDay 5 y (mo - 1) dy =
                    normDay 4 (y + 1) 0 (dy - daysInMonth y (mo - 1)) := by
                  rw [normDay, if_neg (by omega), if_pos hgt, if_pos h11]
                rw [hstep]
                have := normDay_pos_mono 4 (y + 1) 0 (dy - daysInMonth y (mo - 1)) (by omega)
                omega
              · have hstep : normDay 5 y (mo - 1) dy =
                    normDay 4 y (mo - 1 + 1) (dy - daysInMonth y (mo - 1)) := by
                  rw [normDay, if_neg (by omega), if_pos hgt, if_neg h11]
                rw [hstep]
                have := normDay_pos_mono 4 y (mo - 1 + 1) (dy - daysInMonth y (mo - 1))
                  (by omega)
                omega
            have hMle := normDay_M_le 5 y (mo - 1) dy (by omega)
            -- if both year and month matched, the position would not
            -- have moved
            have hfalse : ((normDay 5 y (mo - 1) dy).1 == y) = false ∨
                (((normDay 5 y (mo - 1) dy).2.1 : Int) == ((mo : Nat) : Int) - 1) = false := by
              by_cases hYeq : (normDay 5 y (mo - 1) dy).1 = y
              · right
                rw [beq_eq_false_iff_ne]
                intro hcon
                omega
              · left
                rw [beq_eq_false_iff_ne]
                exact hYeq
            have hrd : (decide (dy ≤ daysInMonth y (mo - 1))) = false := by
              simp
              omega
            rcases hfalse with hf | hf
            · rw [hf]
              simp [realDate, hrd]
            · rw [hf]
              simp [realDate, hrd]

/-- Claim C9, counterexample: `"0099-01-01"` matches the syntactic
form `^\d{4}-\d{2}-\d{2}$` and denotes a real calendar date, yet
`isValidDate` rejects it: the `Date(year, …)` constructor reads year
99 as 1999, so the year round-trip fails. -/
theorem isValidDate_rejects_year_0099 :
    isValidDate "0099-01-01" = false ∧
    parseDateShape "0099-01-01" = some (99, 1, 1) ∧
    realDate 99 1 1 = true :=
  ⟨by decide, by decide, by decide⟩

/-- Claim C9, amended: the standalone date-validity check returns true
iff the input matches `^\d{4}-\d{2}-\d{2}$`, its components form a
real calendar date, and the year component is at least 100 — the
`Date(year, month, day)` constructor interprets years 0–99 as
1900–1999, so dates of years 0000–0099 are always rejected even when
they are real calendar dates. -/
theorem isValidDate_characterization (s : String) :
    isValidDate s = specValidDate s := by
  unfold isValidDate specValidDate
  by_cases hs : s = ""
  · subst hs
    rfl
  · rw [if_neg hs]
    cases hp : parseDateShape s with
    | none => rfl
    | some t =>
      obtain ⟨y, mo, dy⟩ := t
      exact jsDateCheck_eq y mo dy

end Blog
